import Mathlib

/-!
Verification development for the scanex repository (dependency discovery
engine).  Paths are modelled as lists of components (`List String`) for the
filesystem layer, and as character lists (`List Char`) where the source
manipulates path strings.  Plugin scan/resolve functions and the external
tree-sitter parsers are parameters, exactly as they are duck-typed modules
in the source; everything the claims depend on is translated from
`bin/scanex.js` (the current engine), `bin/codesnap.js` (the older engine
variant), `lib/core.js` and the plugins under `lib/lang`.
-/

namespace Scanex

/-! ### Character-list utilities (modelling JS string primitives) -/

abbrev Chars := List Char

/-- Model of `hay.endsWith(needle)`. -/
def endsWithL (hay needle : Chars) : Bool := needle.isSuffixOf hay

/-- Model of `hay.startsWith(needle)`. -/
def startsWithL (hay needle : Chars) : Bool := needle.isPrefixOf hay

/-- Model of `s.split(sep)` for a single separator character. -/
def splitOnChar (sep : Char) : Chars → List Chars
  | [] => [[]]
  | c :: cs =>
    let r := splitOnChar sep cs
    if c = sep then [] :: r
    else
      match r with
      | [] => [[c]]
      | h :: t => (c :: h) :: t

/-- JS whitespace for `trim`. -/
def isWS (c : Char) : Bool := c = ' ' || c = '\t' || c = '\n' || c = '\r'

/-- Model of `s.trim()`. -/
def trimChars (l : Chars) : Chars :=
  ((l.dropWhile isWS).reverse.dropWhile isWS).reverse

/-! ### Extension matching (`getFileExtension` in `bin/scanex.js`) -/

def dockerfileChars : Chars := "Dockerfile".toList

def dockerfileDotChars : Chars := "Dockerfile.".toList

/-- Basename (`filepath.split('/').pop()`). -/
def fileNameOf (filepath : Chars) : Chars :=
  (splitOnChar '/' filepath).getLastD []

/-- Node's `path.extname`: the part of the basename from its last dot on,
empty when there is no dot or the only dot starts the basename. -/
def extnameOf (filepath : Chars) : Chars :=
  let bn := fileNameOf filepath
  match bn.reverse.findIdx? (fun c => c = '.') with
  | none => []
  | some i => if i + 1 = bn.length then [] else (bn.reverse.take (i + 1)).reverse

/-- The guard of the Dockerfile special case in `getFileExtension`:
the basename is `Dockerfile` or begins with `Dockerfile.`, and the pseudo
extension `Dockerfile` is registered. -/
def dockerGuard (filepath : Chars) (allExtensions : List Chars) : Bool :=
  let fileName := fileNameOf filepath
  (fileName = dockerfileChars || startsWithL fileName dockerfileDotChars)
    && allExtensions.contains dockerfileChars

/-- Model of `getFileExtension(filepath, allExtensions)` from `bin/scanex.js`:
Dockerfile special case first, then the first registered extension the
filepath ends with, else `extname`. -/
def getFileExtensionL (filepath : Chars) (allExtensions : List Chars) : Chars :=
  if dockerGuard filepath allExtensions then dockerfileChars
  else
    match allExtensions.find? (fun ext => endsWithL filepath ext) with
    | some ext => ext
    | none => extnameOf filepath

/-- The list `ALL_EXT` as produced by `loadPlugins` over `lib/lang` in directory
order: the concatenation of every plugin's `exts` list. -/
def scanexAllExt : List Chars :=
  [".css".toList, ".scss".toList, ".sass".toList, ".less".toList, ".styl".toList,
   "Dockerfile".toList, "Dockerfile.dev".toList, "Dockerfile.prod".toList,
   "Dockerfile.production".toList, "Dockerfile.staging".toList,
   "Dockerfile.test".toList, ".dockerfile".toList,
   ".html.erb".toList,
   ".html".toList, ".htm".toList,
   ".js".toList, ".jsx".toList, ".mjs".toList, ".cjs".toList, ".ts".toList, ".tsx".toList,
   ".json".toList,
   ".md".toList,
   ".py".toList,
   ".rb".toList,
   ".sh".toList, ".bash".toList, ".zsh".toList, ".fish".toList, ".ksh".toList, ".csh".toList,
   ".sql".toList, ".ddl".toList, ".dml".toList, ".pgsql".toList, ".mysql".toList,
   ".sqlite".toList, ".psql".toList,
   ".yml".toList, ".yaml".toList]

theorem not_suffix_of_both {e tgt l : Chars} (h1 : tgt <:+ l)
    (h2 : ¬ e <:+ tgt) (h3 : ¬ tgt <:+ e) : ¬ e <:+ l := by
  intro he
  have hr1 : tgt.reverse <+: l.reverse := List.reverse_prefix.mpr h1
  have hr2 : e.reverse <+: l.reverse := List.reverse_prefix.mpr he
  rcases List.prefix_or_prefix_of_prefix hr2 hr1 with h | h
  · have h4 : e <:+ tgt := List.reverse_prefix.mp h
    exact h2 h4
  · have h4 : tgt <:+ e := List.reverse_prefix.mp h
    exact h3 h4

theorem endsWithL_eq_false {l e : Chars} (h : ¬ e <:+ l) : endsWithL l e = false := by
  unfold endsWithL
  cases hb : e.isSuffixOf l with
  | false => rfl
  | true => exact absurd (List.isSuffixOf_iff_suffix.mp hb) h

theorem endsWithL_eq_true {l e : Chars} (h : e <:+ l) : endsWithL l e = true :=
  List.isSuffixOf_iff_suffix.mpr h

/-- C9.  Extension matching: a filename ending in the composite extension
`.html.erb` (and not captured by the Dockerfile special case) is matched to
`.html.erb` by `getFileExtension` — not to the shorter trailing segment
`.erb` that `extname` would report — and an extensionless filename whose
basename is `Dockerfile` or begins with `Dockerfile.` is matched to the
pseudo-extension `Dockerfile`. -/
theorem getFileExtension_composite_and_pseudo :
    (∀ l : Chars, ".html.erb".toList <:+ l →
      dockerGuard l scanexAllExt = false →
      getFileExtensionL l scanexAllExt = ".html.erb".toList) ∧
    (∀ l : Chars, dockerGuard l scanexAllExt = true →
      getFileExtensionL l scanexAllExt = dockerfileChars) := by
  constructor
  · intro l hsfx hdock
    have e1 : endsWithL l ".css".toList = false :=
      endsWithL_eq_false (not_suffix_of_both hsfx (by decide) (by decide))
    have e2 : endsWithL l ".scss".toList = false :=
      endsWithL_eq_false (not_suffix_of_both hsfx (by decide) (by decide))
    have e3 : endsWithL l ".sass".toList = false :=
      endsWithL_eq_false (not_suffix_of_both hsfx (by decide) (by decide))
    have e4 : endsWithL l ".less".toList = false :=
      endsWithL_eq_false (not_suffix_of_both hsfx (by decide) (by decide))
    have e5 : endsWithL l ".styl".toList = false :=
      endsWithL_eq_false (not_suffix_of_both hsfx (by decide) (by decide))
    have e6 : endsWithL l "Dockerfile".toList = false :=
      endsWithL_eq_false (not_suffix_of_both hsfx (by decide) (by decide))
    have e7 : endsWithL l "Dockerfile.dev".toList = false :=
      endsWithL_eq_false (not_suffix_of_both hsfx (by decide) (by decide))
    have e8 : endsWithL l "Dockerfile.prod".toList = false :=
      endsWithL_eq_false (not_suffix_of_both hsfx (by decide) (by decide))
    have e9 : endsWithL l "Dockerfile.production".toList = false :=
      endsWithL_eq_false (not_suffix_of_both hsfx (by decide) (by decide))
    have e10 : endsWithL l "Dockerfile.staging".toList = false :=
      endsWithL_eq_false (not_suffix_of_both hsfx (by decide) (by decide))
    have e11 : endsWithL l "Dockerfile.test".toList = false :=
      endsWithL_eq_false (not_suffix_of_both hsfx (by decide) (by decide))
    have e12 : endsWithL l ".dockerfile".toList = false :=
      endsWithL_eq_false (not_suffix_of_both hsfx (by decide) (by decide))
    have e13 : endsWithL l ".html.erb".toList = true := endsWithL_eq_true hsfx
    unfold getFileExtensionL
    rw [hdock]
    simp only [Bool.false_eq_true, if_false, scanexAllExt, List.find?,
      e1, e2, e3, e4, e5, e6, e7, e8, e9, e10, e11, e12, e13]
  · intro l hdock
    unfold getFileExtensionL
    rw [hdock]
    simp

/-- Witness for C9 at concrete inputs: `app/views/home.html.erb` is matched
to `.html.erb` (while `extname` alone would give `.erb`), and
`docker/Dockerfile.prod` is matched to `Dockerfile`. -/
theorem getFileExtension_composite_and_pseudo_witness :
    getFileExtensionL "app/views/home.html.erb".toList scanexAllExt = ".html.erb".toList ∧
    extnameOf "app/views/home.html.erb".toList = ".erb".toList ∧
    getFileExtensionL "docker/Dockerfile.prod".toList scanexAllExt = dockerfileChars := by
  refine ⟨?_, by decide, ?_⟩
  · exact getFileExtension_composite_and_pseudo.1 "app/views/home.html.erb".toList
      (by decide) (by decide)
  · exact getFileExtension_composite_and_pseudo.2 "docker/Dockerfile.prod".toList
      (by decide)

/-! ### Specifiers, plugins and the registry (`lib/core.js` loadPlugins) -/

/-- A specifier extracted by a scan: either a bare string (JavaScript
plugin) or a tagged record (Ruby plugin). -/
inductive Spec where
  | str (value : String)
  | tagged (type value : String)

/-- Model of `typeof spec === 'string' ? spec : spec.value`. -/
def Spec.value : Spec → String
  | .str v => v
  | .tagged _ v => v

/-- Absolute filesystem paths, as the list of components below the
filesystem root.  Rendered with a leading slash by `pathChars`. -/
abbrev FPath := List String

/-- The resolution context `{ projectRoot, aliasConfig, configBasePath,
file }` passed to plugin resolvers. -/
structure Ctx where
  projectRoot : FPath
  aliasConfig : Option String
  configBasePath : FPath
  file : FPath

/-- A language plugin module: `name`, `exts`, `scan(content, { file })`,
optional `resolve(spec, ctx)`. -/
structure Plugin where
  name : String
  exts : List String
  scan : String → FPath → List Spec
  resolve : Option (Spec → Ctx → Option FPath)

/-- The `scanners` map: `plug.exts.forEach(e => scanners.set(e, plug))`
over the plugin list in load order (later registration wins). -/
def scannersOf (plugins : List Plugin) : String → Option Plugin :=
  plugins.foldl (fun m p => fun e => if e ∈ p.exts then some p else m e) (fun _ => none)

/-- The resolver chain: plugins exposing a `resolve`, in load order. -/
def resolversOf (plugins : List Plugin) : List Plugin :=
  plugins.filter (fun p => p.resolve.isSome)

/-- The list `ALL_EXT`: every plugin's `exts`, concatenated in load order. -/
def allExtOf (plugins : List Plugin) : List String :=
  plugins.foldl (fun acc p => acc ++ p.exts) []

theorem allExtOf_cons (p : Plugin) (ps : List Plugin) :
    allExtOf (p :: ps) = p.exts ++ allExtOf ps := by
  have key : ∀ (ps : List Plugin) (acc : List String),
      ps.foldl (fun acc p => acc ++ p.exts) acc = acc ++ ps.foldl (fun acc p => acc ++ p.exts) [] := by
    intro ps
    induction ps with
    | nil => intro acc; simp
    | cons q qs ih =>
      intro acc
      simp only [List.foldl_cons]
      rw [ih (acc ++ q.exts), ih ([] ++ q.exts)]
      simp
  unfold allExtOf
  simp only [List.foldl_cons]
  rw [key ps ([] ++ p.exts)]
  simp

/-- The `scanners` map holds a plugin for an extension exactly when that
extension occurs in `ALL_EXT`. -/
theorem scannersOf_isSome_iff (plugins : List Plugin) (e : String) :
    (scannersOf plugins e).isSome = true ↔ e ∈ allExtOf plugins := by
  have key : ∀ (ps : List Plugin) (m : String → Option Plugin),
      ((ps.foldl (fun m p => fun e => if e ∈ p.exts then some p else m e) m) e).isSome = true
        ↔ e ∈ allExtOf ps ∨ (m e).isSome = true := by
    intro ps
    induction ps with
    | nil =>
      intro m
      simp [allExtOf]
    | cons p qs ih =>
      intro m
      simp only [List.foldl_cons]
      rw [ih]
      rw [allExtOf_cons]
      constructor
      · rintro (h | h)
        · exact Or.inl (List.mem_append_right _ h)
        · by_cases hpe : e ∈ p.exts
          · exact Or.inl (List.mem_append_left _ hpe)
          · simp only [if_neg hpe] at h
            exact Or.inr h
      · rintro (h | h)
        · rcases List.mem_append.mp h with h | h
          · right
            simp [if_pos h]
          · exact Or.inl h
        · by_cases hpe : e ∈ p.exts
          · right
            simp [if_pos hpe]
          · right
            simpa [if_neg hpe] using h
  rw [scannersOf, key]
  simp

/-! ### Resolver chains (C3) -/

/-- The resolver loop of `bin/scanex.js`: try each registered resolver in
order and `break` at the first non-null result. -/
def resolveChainFirst (rs : List Plugin) (spec : Spec) (ctx : Ctx) : Option FPath :=
  match rs with
  | [] => none
  | r :: rest =>
    match r.resolve with
    | some f =>
      match f spec ctx with
      | some t => some t
      | none => resolveChainFirst rest spec ctx
    | none => resolveChainFirst rest spec ctx

/-- The resolver loop of `bin/codesnap.js`:
`target = r.resolve?.(spec, ctx) || target`, with no break. -/
def resolveChainCodesnap (rs : List Plugin) (spec : Spec) (ctx : Ctx) : Option FPath :=
  rs.foldl (fun t r =>
    match r.resolve with
    | some f => match f spec ctx with | some x => some x | none => t
    | none => t) none

def emptyCtx : Ctx := ⟨[], none, [], []⟩

/-- A plugin with no custom resolver. -/
def inertPlugin : Plugin := ⟨"inert", [], fun _ _ => [], none⟩

/-- A resolver that always answers `lib/a.rb`. -/
def alwaysA : Plugin := ⟨"alwaysA", [], fun _ _ => [], some (fun _ _ => some ["lib", "a.rb"])⟩

/-- A resolver that always answers `lib/b.rb`. -/
def alwaysB : Plugin := ⟨"alwaysB", [], fun _ _ => [], some (fun _ _ => some ["lib", "b.rb"])⟩

/-- C3 counterexample.  In the `bin/codesnap.js` variant of the resolver
loop (cited by the claim), a later resolver DOES override an earlier
non-null result: with two resolvers that both return non-null, the chain
returns the second one's path, not the first one's. -/
theorem resolveChainCodesnap_last_wins_cx :
    resolveChainCodesnap [alwaysA, alwaysB] (Spec.str "foo") emptyCtx = some ["lib", "b.rb"] ∧
    (fun _ _ => some ["lib", "a.rb"] : Spec → Ctx → Option FPath) (Spec.str "foo") emptyCtx
      = some ["lib", "a.rb"] ∧
    (["lib", "b.rb"] : FPath) ≠ ["lib", "a.rb"] :=
  ⟨rfl, rfl, by decide⟩

/-- C3 amended.  In the `bin/scanex.js` engine the first plugin returning a
non-null path wins and later resolvers cannot override it; the older
`bin/codesnap.js` loop instead consults every resolver and keeps the LAST
non-null result, which is the first-wins rule on the reversed chain. -/
theorem resolveChain_first_wins :
    (∀ (rs1 rs2 : List Plugin) (r : Plugin) (spec : Spec) (ctx : Ctx)
        (f : Spec → Ctx → Option FPath) (t : FPath),
      (∀ r' ∈ rs1, ∀ f', r'.resolve = some f' → f' spec ctx = none) →
      r.resolve = some f → f spec ctx = some t →
      resolveChainFirst (rs1 ++ r :: rs2) spec ctx = some t) ∧
    (∀ (rs : List Plugin) (spec : Spec) (ctx : Ctx),
      resolveChainCodesnap rs spec ctx = resolveChainFirst rs.reverse spec ctx) := by
  constructor
  · intro rs1 rs2 r spec ctx f t hnone hr hf
    induction rs1 with
    | nil =>
      simp only [List.nil_append, resolveChainFirst, hr, hf]
    | cons r' rest ih =>
      have hstep := hnone r' (List.mem_cons_self r' rest)
      have htail : ∀ r'' ∈ rest, ∀ f', r''.resolve = some f' → f' spec ctx = none :=
        fun r'' h'' => hnone r'' (List.mem_cons_of_mem _ h'')
      simp only [List.cons_append, resolveChainFirst]
      cases hres : r'.resolve with
      | none => exact ih htail
      | some f' =>
        simp only [hstep f' hres]
        exact ih htail
  · intro rs spec ctx
    induction rs using List.reverseRecOn with
    | nil => rfl
    | append_singleton rest r ih =>
      unfold resolveChainCodesnap at ih ⊢
      rw [List.foldl_append, List.reverse_append]
      simp only [List.foldl_cons, List.foldl_nil, List.reverse_singleton, List.singleton_append,
        resolveChainFirst]
      cases hres : r.resolve with
      | none =>
        simpa using ih
      | some f =>
        cases hf : f spec ctx with
        | none => simpa [hf] using ih
        | some x => simp [hf]

/-- Witness for C3 amended: with an inert plugin first, `alwaysA` second and
`alwaysB` third, the scanex chain answers `lib/a.rb` (first non-null wins),
and the codesnap loop equals the first-wins rule on the reversed chain. -/
theorem resolveChain_first_wins_witness :
    resolveChainFirst ([inertPlugin] ++ alwaysA :: [alwaysB]) (Spec.str "foo") emptyCtx
      = some ["lib", "a.rb"] ∧
    resolveChainCodesnap [alwaysA, alwaysB] (Spec.str "foo") emptyCtx
      = resolveChainFirst ([alwaysA, alwaysB] : List Plugin).reverse (Spec.str "foo") emptyCtx := by
  constructor
  · exact resolveChain_first_wins.1 [inertPlugin] [alwaysB] alwaysA (Spec.str "foo") emptyCtx
      (fun _ _ => some ["lib", "a.rb"]) ["lib", "a.rb"]
      (by
        intro r' hr' f' hf'
        simp only [List.mem_singleton] at hr'
        subst hr'
        simp [inertPlugin] at hf')
      rfl rfl
  · exact resolveChain_first_wins.2 [alwaysA, alwaysB] (Spec.str "foo") emptyCtx

/-! ### Filesystem model -/

/-! A filesystem tree: regular files carry their content and whether a
read succeeds (permissions), directories carry named children.  A mutual
inductive is used so that all recursions below are structural and reduce
in the kernel. -/
mutual
inductive FSNode where
  | file (content : String) (readable : Bool)
  | dir (children : FSEntries)
inductive FSEntries where
  | nil
  | cons (name : String) (node : FSNode) (rest : FSEntries)
end

/-- Build a directory's entry list. -/
def FSEntries.ofList : List (String × FSNode) → FSEntries
  | [] => .nil
  | (n, c) :: rest => .cons n c (FSEntries.ofList rest)

def findChild (children : FSEntries) (name : String) : Option FSNode :=
  match children with
  | .nil => none
  | .cons n c rest => if n = name then some c else findChild rest name

/-- Resolve a component path inside the tree. -/
def lookupFS (node : FSNode) (p : FPath) : Option FSNode :=
  match p with
  | [] => some node
  | c :: cs =>
    match node with
    | .file _ _ => none
    | .dir children =>
      match findChild children c with
      | some child => lookupFS child cs
      | none => none

/-- Model of `statSync`: `some true` for a regular file, `some false` for a
directory, `none` when stat throws (no such path). -/
def statAt (fs : FSNode) (p : FPath) : Option Bool :=
  match lookupFS fs p with
  | some (.file _ _) => some true
  | some (.dir _) => some false
  | none => none

def isFileAt (fs : FSNode) (p : FPath) : Bool :=
  match lookupFS fs p with
  | some (.file _ _) => true
  | _ => false

/-- Model of `readFileSync`: succeeds only on a readable regular file; `none`
models the thrown exception. -/
def readFileAt (fs : FSNode) (p : FPath) : Option String :=
  match lookupFS fs p with
  | some (.file content true) => some content
  | _ => none

/-- Model of `existsSync`. -/
def existsAt (fs : FSNode) (p : FPath) : Bool := (lookupFS fs p).isSome

mutual
def allFilesAt : FSNode → FPath → List FPath
  | .file _ _, p => [p]
  | .dir children, p => allFilesChildren children p
def allFilesChildren : FSEntries → FPath → List FPath
  | .nil, _ => []
  | .cons n c rest, p => allFilesAt c (p ++ [n]) ++ allFilesChildren rest p
end

/-- Every regular-file path of the tree. -/
def allFiles (fs : FSNode) : List FPath := allFilesAt fs []

def findChild_allFiles_sub (a : String) (child : FSNode) :
    ∀ (chs : FSEntries) (pp : FPath), findChild chs a = some child →
      ∀ x, x ∈ allFilesAt child (pp ++ [a]) → x ∈ allFilesChildren chs pp
  | .nil, pp, hx => by simp [findChild] at hx
  | .cons n0 c0 tl, pp, hx => by
    simp only [findChild] at hx
    by_cases he : n0 = a
    · rw [if_pos he] at hx
      cases hx
      subst he
      intro x hxm
      simp only [allFilesChildren]
      exact List.mem_append_left _ hxm
    · rw [if_neg he] at hx
      intro x hxm
      simp only [allFilesChildren]
      exact List.mem_append_right _ (findChild_allFiles_sub a child tl pp hx x hxm)

theorem lookupFS_file_mem_allFilesAt :
    ∀ (q : FPath) (n : FSNode) (p : FPath) (c : String) (r : Bool),
      lookupFS n q = some (.file c r) → (p ++ q) ∈ allFilesAt n p := by
  intro q
  induction q with
  | nil =>
    intro n p c r h
    simp only [lookupFS, Option.some.injEq] at h
    subst h
    simp [allFilesAt]
  | cons a as ih =>
    intro n p c r h
    match n with
    | .file _ _ => simp [lookupFS] at h
    | .dir children =>
      simp only [lookupFS] at h
      cases hfc : findChild children a with
      | none => rw [hfc] at h; exact absurd h (by simp)
      | some child =>
        rw [hfc] at h
        have hmem : (p ++ [a]) ++ as ∈ allFilesAt child (p ++ [a]) := ih child (p ++ [a]) c r h
        have := findChild_allFiles_sub a child children p hfc _ hmem
        simpa [List.append_assoc] using this

theorem lookupFS_file_mem_allFiles {fs : FSNode} {q : FPath} {c : String} {r : Bool}
    (h : lookupFS fs q = some (.file c r)) : q ∈ allFiles fs := by
  have := lookupFS_file_mem_allFilesAt q fs [] c r h
  simpa [allFiles] using this

theorem isFileAt_mem_allFiles {fs : FSNode} {q : FPath}
    (h : isFileAt fs q = true) : q ∈ allFiles fs := by
  unfold isFileAt at h
  cases hl : lookupFS fs q with
  | none => rw [hl] at h; simp at h
  | some n =>
    match n with
    | .file c r => exact lookupFS_file_mem_allFiles hl
    | .dir ch => rw [hl] at h; simp at h

/-! ### Path rendering -/

/-- Render an absolute path: `/a/b/c`. -/
def pathChars (p : FPath) : Chars :=
  p.foldl (fun acc comp => acc ++ '/' :: comp.toList) []

/-- Model of `relative(projectRoot, p)` for a path below the root: the components
after the root, joined with `/` and no leading slash. -/
def relChars (root p : FPath) : Chars :=
  match p.drop root.length with
  | [] => []
  | c :: cs => c.toList ++ cs.foldl (fun acc comp => acc ++ '/' :: comp.toList) []

/-! ### Gitignore rule compilation (`parseGitignoreInDir` in `lib/core.js`)

The source compiles each pattern line to a regular expression; the
compilation escapes every regex metacharacter except the wildcards, turns
`**` into `.*` and `*` into `[^/]*`, prefixes the rule's directory, allows
`(.*/)?` before unrooted patterns and `(/.*)?` after directory-only
patterns, and anchors both ends.  `GRule`/`ruleMatches` implement exactly
the language of the constructed regex. -/

inductive GTok where
  | lit (c : Char)
  | star
  | dstar

/-- Wildcards: `**` becomes `.*` (dstar), `*` becomes `[^/]*` (star), every other
character is literal (the source escapes regex metacharacters). -/
def tokenizePattern : Chars → List GTok
  | [] => []
  | '*' :: '*' :: rest => .dstar :: tokenizePattern rest
  | '*' :: rest => .star :: tokenizePattern rest
  | c :: rest => .lit c :: tokenizePattern rest

/-- Star `[^/]*` followed by the continuation `k`: try `k` at every suffix
reachable without crossing a slash. -/
def starLoop (k : Chars → Bool) : Chars → Bool
  | [] => k []
  | x :: xs => k (x :: xs) || (!(x = '/') && starLoop k xs)

/-- Doublestar `.*` followed by the continuation `k`: try `k` at every suffix. -/
def dstarLoop (k : Chars → Bool) : Chars → Bool
  | [] => k []
  | x :: xs => k (x :: xs) || dstarLoop k xs

/-- Match the token list against the string, anchored at both ends; when
`allowDirTail` is set (directory-only rules), a trailing `/...` is also
accepted (the `(/.*)?$` part of the regex). -/
def matchCore : List GTok → Bool → Chars → Bool
  | [], allowDirTail, s =>
    match s with
    | [] => true
    | c :: _ => allowDirTail && c = '/'
  | .lit c :: ts, a, s =>
    match s with
    | [] => false
    | x :: xs => x = c && matchCore ts a xs
  | .star :: ts, a, s => starLoop (matchCore ts a) s
  | .dstar :: ts, a, s => dstarLoop (matchCore ts a) s

/-- Try the core after each slash of the string (the `(.*/)?` part of the
regex for unrooted patterns). -/
def anyDirsAux (ts : List GTok) (a : Bool) : Chars → Bool
  | [] => false
  | c :: cs => (c = '/' && matchCore ts a cs) || anyDirsAux ts a cs

def anyDirsMatch (ts : List GTok) (a : Bool) (s : Chars) : Bool :=
  matchCore ts a s || anyDirsAux ts a s

/-- A compiled ignore rule: the root-relative directory of its
`.gitignore`, the tokenized pattern, and the rooted / directory-only
flags. -/
structure GRule where
  dir : Chars
  toks : List GTok
  rooted : Bool
  isDir : Bool

/-- Compile one (trimmed, kept) pattern line from a `.gitignore` in the
directory whose root-relative path is `relativeDir`. -/
def compileRule (relativeDir : Chars) (line : Chars) : GRule :=
  let isDir := endsWithL line ['/']
  let p1 := if isDir then line.dropLast else line
  let rooted := startsWithL p1 ['/']
  let p2 := if rooted then p1.drop 1 else p1
  { dir := relativeDir, toks := tokenizePattern p2, rooted := rooted, isDir := isDir }

/-- Semantics of the compiled regex on a root-relative path. -/
def ruleMatches (r : GRule) (relPath : Chars) : Bool :=
  let pre := if r.dir = [] then [] else r.dir ++ ['/']
  startsWithL relPath pre &&
    (let rest := relPath.drop pre.length
     if r.rooted then matchCore r.toks r.isDir rest
     else anyDirsMatch r.toks r.isDir rest)

/-- Split the `.gitignore` content into trimmed lines, dropping blanks,
comments and (syntactically recognized but unapplied) negations. -/
def gitignoreLines (content : String) : List Chars :=
  ((splitOnChar '\n' content.toList).map trimChars).filter
    (fun l => !l.isEmpty && !startsWithL l ['#'] && !startsWithL l ['!'])

def parseGitignoreRules (relativeDir : Chars) (content : String) : List GRule :=
  (gitignoreLines content).map (compileRule relativeDir)

/-- Read and compile the `.gitignore` of a directory (read failures are
caught and yield no rules). -/
def gitignoreOf (children : FSEntries) (relativeDir : Chars) : List GRule :=
  match findChild children ".gitignore" with
  | some (.file content true) => parseGitignoreRules relativeDir content
  | _ => []

/-- Model of `isIgnored` from `lib/core.js`: global exclude pattern on the
root-relative path, then the accumulated gitignore rules. -/
def isIgnored (IGN : Chars → Bool) (projectRoot : FPath) (p : FPath)
    (rules : List GRule) : Bool :=
  let rel := relChars projectRoot p
  IGN rel || rules.any (fun r => ruleMatches r rel)

/-! ### The walker (`walk`/`dive` in `lib/core.js`) -/

mutual
/-- Model of `dive`: a file is pushed unconditionally; a directory merges its
local `.gitignore` rules into the inherited ones and recurses into each
non-ignored child. -/
def dive (IGN : Chars → Bool) (projectRoot : FPath) :
    FSNode → FPath → List GRule → List FPath
  | .file _ _, p, _ => [p]
  | .dir children, p, inherited =>
    let localRules := gitignoreOf children (relChars projectRoot p)
    diveChildren IGN projectRoot children p (inherited ++ localRules)
def diveChildren (IGN : Chars → Bool) (projectRoot : FPath) :
    FSEntries → FPath → List GRule → List FPath
  | .nil, _, _ => []
  | .cons name child rest, p, allRules =>
    (if isIgnored IGN projectRoot (p ++ [name]) allRules then []
     else dive IGN projectRoot child (p ++ [name]) allRules) ++
    diveChildren IGN projectRoot rest p allRules
end

/-- Model of `walk(start, IGNORE, projectRoot)`: stat the start (a failure logs and
returns nothing), then dive with no inherited rules. -/
def walkFrom (fs : FSNode) (start : FPath) (IGN : Chars → Bool)
    (projectRoot : FPath) : List FPath :=
  match lookupFS fs start with
  | none => []
  | some n => dive IGN projectRoot n start []

/-! ### C8 scenario: nested gitignore scoping -/

/-- Project tree for the nested-gitignore scenario: a root `.gitignore`
excluding `build/` and a nested `packages/foo/.gitignore` excluding
`dist/`. -/
def c8Entries : FSEntries :=
  FSEntries.ofList [
    (".gitignore", .file "build/\n" true),
    ("build", .dir (FSEntries.ofList [("a.js", .file "" true)])),
    ("packages", .dir (FSEntries.ofList [
      ("foo", .dir (FSEntries.ofList [
        (".gitignore", .file "dist/\n" true),
        ("dist", .dir (FSEntries.ofList [("z.js", .file "" true)])),
        ("ok.js", .file "" true)])),
      ("bar", .dir (FSEntries.ofList [
        ("dist", .dir (FSEntries.ofList [("z.js", .file "" true)])),
        ("build", .dir (FSEntries.ofList [("q.js", .file "" true)]))]))])),
    ("src", .dir (FSEntries.ofList [("x.js", .file "" true)]))]

def c8FS : FSNode := .dir c8Entries

/-- An exclude pattern that matches nothing. -/
def noIgnore : Chars → Bool := fun _ => false

/-- C8.  Walking the scenario tree: the nested rule `dist/` from
`packages/foo/.gitignore` prunes `packages/foo/dist/z.js` but is scoped to
its own subtree, so `packages/bar/dist/z.js` survives; the ancestor rule
`build/` from the root `.gitignore` applies to the whole descendant tree,
pruning both `build/a.js` and `packages/bar/build/q.js`. -/
theorem nested_gitignore_scoping :
    (["packages", "foo", "dist", "z.js"] : FPath) ∉ walkFrom c8FS [] noIgnore [] ∧
    (["packages", "bar", "dist", "z.js"] : FPath) ∈ walkFrom c8FS [] noIgnore [] ∧
    (["build", "a.js"] : FPath) ∉ walkFrom c8FS [] noIgnore [] ∧
    (["packages", "bar", "build", "q.js"] : FPath) ∉ walkFrom c8FS [] noIgnore [] ∧
    (["packages", "foo", "ok.js"] : FPath) ∈ walkFrom c8FS [] noIgnore [] ∧
    (["src", "x.js"] : FPath) ∈ walkFrom c8FS [] noIgnore [] := by
  decide

/-! ### The BFS engine (`bin/scanex.js`) -/

/-- Model of `path.resolve(dir, spec)`: fold the specifier's slash-separated
segments over the directory, handling `.`, `..` and empty segments. -/
def resolvePath (dir : FPath) (spec : String) : FPath :=
  (splitOnChar '/' spec.toList).foldl
    (fun acc seg =>
      if seg = [] then acc
      else if seg = ['.'] then acc
      else if seg = ['.', '.'] then acc.dropLast
      else acc ++ [String.mk seg])
    dir

/-- Candidate `base + e`: append an extension to the path's last component. -/
def appendExt (base : FPath) (ext : String) : FPath :=
  match base.getLast? with
  | none => [ext]
  | some last => base.dropLast ++ [last ++ ext]

/-- The relative fast path:
`ALL_EXT.map(e => base.endsWith(e) ? base : base + e).find(existsSync)`. -/
def probeRelative (fs : FSNode) (allExt : List String) (base : FPath) : Option FPath :=
  (allExt.map (fun e => if endsWithL (pathChars base) e.toList then base else appendExt base e)).find?
    (fun cand => existsAt fs cand)

/-- Everything a run of the scanex BFS engine closes over. -/
structure Engine where
  fs : FSNode
  IGN : Chars → Bool
  plugins : List Plugin
  projectRoot : FPath
  aliasConfig : Option String
  configBasePath : FPath

def Engine.allExt (E : Engine) : List String := allExtOf E.plugins

/-- Model of `getFileExtension(file, ALL_EXT)` on a component path. -/
def Engine.extOf (E : Engine) (p : FPath) : String :=
  String.mk (getFileExtensionL (pathChars p) (E.allExt.map String.toList))

/-- Model of `ALL_EXT.includes(getFileExtension(f, ALL_EXT))`. -/
def Engine.recognizedB (E : Engine) (p : FPath) : Bool :=
  E.allExt.contains (E.extOf p)

/-- Model of `scanners.get(getFileExtension(file, ALL_EXT))`. -/
def Engine.scannerOf (E : Engine) (p : FPath) : Option Plugin :=
  scannersOf E.plugins (E.extOf p)

def Engine.resolvers (E : Engine) : List Plugin := resolversOf E.plugins

/-- The resolution context built for the current file. -/
def Engine.ctxFor (E : Engine) (file : FPath) : Ctx :=
  ⟨E.projectRoot, E.aliasConfig, E.configBasePath, file⟩

/-- Resolution of one specifier: the relative fast path when the value
starts with `.`, falling back to the resolver chain. -/
def targetOf (E : Engine) (file : FPath) (sp : Spec) : Option FPath :=
  let specValue := sp.value
  let relTarget : Option FPath :=
    if specValue.startsWith "." then
      probeRelative E.fs E.allExt (resolvePath file.dropLast specValue)
    else none
  match relTarget with
  | some t => some t
  | none => resolveChainFirst E.resolvers sp (E.ctxFor file)

/-- Handling of one specifier of the currently scanned file, updating the
pair (visited, pushed-this-run): resolution, then the ignore / visited /
stat gate. -/
def processSpec (E : Engine) (file : FPath) (acc : List FPath × List FPath)
    (sp : Spec) : List FPath × List FPath :=
  match targetOf E file sp with
  | none => acc
  | some t =>
    if E.IGN (pathChars t) then acc
    else if acc.1.contains t then acc
    else
      match statAt E.fs t with
      | some true => (acc.1 ++ [t], acc.2 ++ [t])
      | _ => acc

structure BFSState where
  pending : List FPath
  visited : List FPath
  scanLog : List FPath

inductive BFSOutcome where
  | ok
  | readFail (f : FPath)
  | fuelOut
deriving DecidableEq

/-- The BFS loop `for (let i = 0; i < queue.length; i++)`.  A file with no
scanner is skipped; otherwise its content is read — `readFileSync` is NOT
guarded, so a read failure aborts the loop (`readFail`) — and each
specifier the scan returns is resolved and possibly enqueued.  `scanLog`
records every file on which a plugin's `scan` was invoked. -/
def runBFS (E : Engine) : Nat → BFSState → BFSOutcome × BFSState
  | fuel, st =>
    match st.pending with
    | [] => (.ok, st)
    | f :: rest =>
      match fuel with
      | 0 => (.fuelOut, st)
      | fuel' + 1 =>
        match E.scannerOf f with
        | none => runBFS E fuel' ⟨rest, st.visited, st.scanLog⟩
        | some plug =>
          match readFileAt E.fs f with
          | none => (.readFail f, st)
          | some src =>
            let res := (plug.scan src f).foldl (processSpec E f) (st.visited, [])
            runBFS E fuel' ⟨rest ++ res.2, res.1, st.scanLog ++ [f]⟩

/-- JS `new Set(array)`: keep the first occurrence of each element. -/
def setOfList (l : List FPath) : List FPath :=
  l.foldl (fun acc x => if acc.contains x then acc else acc ++ [x]) []

/-- The seed queue: `for (const p of INPUTS) queue.push(...walk(p, ...))`. -/
def seedQueue (E : Engine) (inputs : List FPath) : List FPath :=
  inputs.foldl (fun acc p => acc ++ walkFrom E.fs p E.IGN E.projectRoot) []

/-- The initial visited set:
`new Set(queue.filter(f => ALL_EXT.includes(getFileExtension(f, ALL_EXT))))`. -/
def initialVisited (E : Engine) (queue0 : List FPath) : List FPath :=
  setOfList (queue0.filter (fun f => E.recognizedB f))

/-- A whole scanex run: walk the inputs, seed, BFS. -/
def scanexRun (E : Engine) (inputs : List FPath) (fuel : Nat) : BFSOutcome × BFSState :=
  let q0 := seedQueue E inputs
  runBFS E fuel ⟨q0, initialVisited E q0, []⟩

/-- Lexicographic string order modelling the JS default sort comparator. -/
def chLe : Chars → Chars → Bool
  | [], _ => true
  | _ :: _, [] => false
  | a :: as, b :: bs => if a = b then chLe as bs else decide (a < b)

def insertSorted (x : Chars) : List Chars → List Chars
  | [] => [x]
  | y :: ys => if chLe x y then x :: y :: ys else y :: insertSorted x ys

def sortChars : List Chars → List Chars
  | [] => []
  | x :: xs => insertSorted x (sortChars xs)

/-- The file list of the rendered bundle: `bundle([...visited].sort(), ...)`
iterates exactly the sorted visited set. -/
def bundleFileList (visited : List FPath) : List Chars :=
  sortChars (visited.map pathChars)

/-! ### Engine lemmas -/

theorem statAt_true_isFileAt {fs : FSNode} {t : FPath}
    (h : statAt fs t = some true) : isFileAt fs t = true := by
  unfold statAt at h
  unfold isFileAt
  cases hl : lookupFS fs t with
  | none => rw [hl] at h; simp at h
  | some n =>
    rw [hl] at h
    match n with
    | .file _ _ => rfl
    | .dir _ => simp at h

theorem processSpec_cases (E : Engine) (file : FPath)
    (acc : List FPath × List FPath) (sp : Spec) :
    processSpec E file acc sp = acc ∨
    ∃ t, processSpec E file acc sp = (acc.1 ++ [t], acc.2 ++ [t]) ∧
      acc.1.contains t = false ∧ statAt E.fs t = some true ∧
      E.IGN (pathChars t) = false := by
  unfold processSpec
  cases htgt : targetOf E file sp with
  | none => exact Or.inl rfl
  | some t =>
    dsimp only
    by_cases hign : E.IGN (pathChars t) = true
    · rw [if_pos hign]; exact Or.inl rfl
    · rw [if_neg hign]
      by_cases hvis : acc.1.contains t = true
      · rw [if_pos hvis]; exact Or.inl rfl
      · rw [if_neg hvis]
        cases hstat : statAt E.fs t with
        | none => exact Or.inl rfl
        | some b =>
          cases b with
          | false => exact Or.inl rfl
          | true =>
            right
            exact ⟨t, rfl, by simpa using hvis, hstat, by simpa using hign⟩

theorem foldl_processSpec_delta (E : Engine) (file : FPath) :
    ∀ (specs : List Spec) (v ps : List FPath),
      ∃ δ : List FPath,
        (specs.foldl (processSpec E file) (v, ps)).1 = v ++ δ ∧
        (specs.foldl (processSpec E file) (v, ps)).2 = ps ++ δ ∧
        δ.Nodup ∧
        ∀ t ∈ δ, t ∉ v ∧ statAt E.fs t = some true ∧
          E.IGN (pathChars t) = false := by
  intro specs
  induction specs with
  | nil =>
    intro v ps
    exact ⟨[], by simp, by simp, List.nodup_nil, by simp⟩
  | cons sp rest ih =>
    intro v ps
    simp only [List.foldl_cons]
    rcases processSpec_cases E file (v, ps) sp with h | ⟨t, heq, hcont, hstat, hign⟩
    · rw [h]
      exact ih v ps
    · rw [heq]
      rcases ih (v ++ [t]) (ps ++ [t]) with ⟨δ, h1, h2, hnd, hprop⟩
      have htv : t ∉ v := by
        intro huv
        have : v.contains t = true := List.elem_iff.mpr huv
        rw [hcont] at this
        exact Bool.false_ne_true this
      refine ⟨t :: δ, ?_, ?_, ?_, ?_⟩
      · rw [h1]; simp
      · rw [h2]; simp
      · rw [List.nodup_cons]
        refine ⟨?_, hnd⟩
        intro hmem
        rcases hprop t hmem with ⟨hnv, _, _⟩
        exact hnv (by simp)
      · intro u hu
        rcases List.mem_cons.mp hu with rfl | hu'
        · exact ⟨htv, hstat, hign⟩
        · rcases hprop u hu' with ⟨hnv, hs, hi⟩
          exact ⟨fun huv => hnv (List.mem_append_left _ huv), hs, hi⟩

/-- Everything the BFS adds to the visited set after the seeds passed the
gate: a stat-confirmed regular file whose absolute path the exclude
pattern does not match. -/
theorem runBFS_visited_growth (E : Engine) :
    ∀ (fuel : Nat) (st : BFSState),
      ∃ δ, (runBFS E fuel st).2.visited = st.visited ++ δ ∧
        ∀ t ∈ δ, statAt E.fs t = some true ∧ E.IGN (pathChars t) = false := by
  intro fuel
  induction fuel with
  | zero =>
    intro st
    refine ⟨[], ?_, by simp⟩
    rw [runBFS]
    cases hp : st.pending with
    | nil => simp
    | cons f rest => simp
  | succ fuel' ih =>
    intro st
    rw [runBFS]
    cases hp : st.pending with
    | nil => exact ⟨[], by simp, by simp⟩
    | cons f rest =>
      dsimp only
      cases hsc : E.scannerOf f with
      | none =>
        rcases ih ⟨rest, st.visited, st.scanLog⟩ with ⟨δ, h1, h2⟩
        exact ⟨δ, h1, h2⟩
      | some plug =>
        cases hrd : readFileAt E.fs f with
        | none => exact ⟨[], by simp, by simp⟩
        | some src =>
          dsimp only
          rcases foldl_processSpec_delta E f (plug.scan src f) st.visited [] with
            ⟨δ₀, hf1, _, _, hp0⟩
          rcases ih ⟨rest ++ ((plug.scan src f).foldl (processSpec E f) (st.visited, [])).2,
            ((plug.scan src f).foldl (processSpec E f) (st.visited, [])).1,
            st.scanLog ++ [f]⟩ with ⟨δ₁, h1, h2⟩
          refine ⟨δ₀ ++ δ₁, ?_, ?_⟩
          · rw [h1]
            dsimp only
            rw [hf1, List.append_assoc]
          · intro t ht
            rcases List.mem_append.mp ht with h | h
            · rcases hp0 t h with ⟨_, hs, hi⟩; exact ⟨hs, hi⟩
            · exact h2 t h

/-- The visited set never holds duplicates. -/
theorem runBFS_visited_nodup (E : Engine) :
    ∀ (fuel : Nat) (st : BFSState), st.visited.Nodup →
      ((runBFS E fuel st).2.visited).Nodup := by
  intro fuel
  induction fuel with
  | zero =>
    intro st hnd
    rw [runBFS]
    cases hp : st.pending with
    | nil => simpa using hnd
    | cons f rest => simpa using hnd
  | succ fuel' ih =>
    intro st hnd
    rw [runBFS]
    cases hp : st.pending with
    | nil => simpa using hnd
    | cons f rest =>
      dsimp only
      cases hsc : E.scannerOf f with
      | none => exact ih ⟨rest, st.visited, st.scanLog⟩ hnd
      | some plug =>
        cases hrd : readFileAt E.fs f with
        | none => simpa using hnd
        | some src =>
          dsimp only
          rcases foldl_processSpec_delta E f (plug.scan src f) st.visited [] with
            ⟨δ₀, hf1, _, hnd0, hp0⟩
          refine ih _ ?_
          dsimp only
          rw [hf1, List.nodup_append]
          exact ⟨hnd, hnd0, fun a ha hb => (hp0 a hb).1 ha⟩

/-- A file has a scanner exactly when its extension is recognized:
`scanners` is keyed by every extension in `ALL_EXT`. -/
theorem Engine.scanner_recognized (E : Engine) (f : FPath) :
    (E.scannerOf f).isSome = true ↔ E.recognizedB f = true := by
  unfold Engine.scannerOf Engine.recognizedB Engine.allExt
  rw [scannersOf_isSome_iff]
  exact ⟨fun h => List.elem_iff.mpr h, fun h => List.elem_iff.mp h⟩

theorem setOfList_aux_mem :
    ∀ (l acc : List FPath) (x : FPath),
      x ∈ l.foldl (fun acc x => if acc.contains x then acc else acc ++ [x]) acc ↔
        x ∈ acc ∨ x ∈ l := by
  intro l
  induction l with
  | nil => intro acc x; simp
  | cons y l' ih =>
    intro acc x
    simp only [List.foldl_cons]
    by_cases h : acc.contains y = true
    · rw [if_pos h, ih]
      constructor
      · rintro (hx | hx)
        · exact Or.inl hx
        · exact Or.inr (List.mem_cons_of_mem _ hx)
      · rintro (hx | hx)
        · exact Or.inl hx
        · rcases List.mem_cons.mp hx with rfl | hx'
          · exact Or.inl (List.elem_iff.mp h)
          · exact Or.inr hx'
    · rw [if_neg h, ih]
      simp only [List.mem_append, List.mem_singleton, List.mem_cons]
      tauto

theorem setOfList_mem (l : List FPath) (x : FPath) : x ∈ setOfList l ↔ x ∈ l := by
  unfold setOfList
  rw [setOfList_aux_mem]
  simp

theorem setOfList_aux_nodup :
    ∀ (l acc : List FPath), acc.Nodup →
      (l.foldl (fun acc x => if acc.contains x then acc else acc ++ [x]) acc).Nodup := by
  intro l
  induction l with
  | nil => intro acc h; simpa using h
  | cons y l' ih =>
    intro acc h
    simp only [List.foldl_cons]
    by_cases hy : acc.contains y = true
    · rw [if_pos hy]; exact ih acc h
    · rw [if_neg hy]
      refine ih _ ?_
      rw [List.nodup_append]
      refine ⟨h, List.nodup_singleton y, ?_⟩
      intro a ha hb
      rcases List.mem_singleton.mp hb with rfl
      exact hy (List.elem_iff.mpr ha)

theorem setOfList_nodup (l : List FPath) : (setOfList l).Nodup :=
  setOfList_aux_nodup l [] List.nodup_nil

theorem initialVisited_nodup (E : Engine) (q0 : List FPath) :
    (initialVisited E q0).Nodup := setOfList_nodup _

theorem initialVisited_mem (E : Engine) (q0 : List FPath) (x : FPath) :
    x ∈ initialVisited E q0 ↔ x ∈ q0 ∧ E.recognizedB x = true := by
  unfold initialVisited
  rw [setOfList_mem]
  simp [List.mem_filter]

/-- With every pending path a regular file and every regular file readable,
the engine never aborts: the outcome is `ok` or `fuelOut`, for any
resolvers and any stat failures on resolved targets. -/
theorem runBFS_ok_or_fuelOut (E : Engine) :
    ∀ (fuel : Nat) (st : BFSState),
      (∀ f ∈ st.pending, isFileAt E.fs f = true) →
      (∀ f ∈ allFiles E.fs, (readFileAt E.fs f).isSome = true) →
      (runBFS E fuel st).1 = BFSOutcome.ok ∨ (runBFS E fuel st).1 = BFSOutcome.fuelOut := by
  intro fuel
  induction fuel with
  | zero =>
    intro st hp hr
    rw [runBFS]
    cases st.pending with
    | nil => exact Or.inl rfl
    | cons f rest => exact Or.inr rfl
  | succ fuel' ih =>
    intro st hpend hread
    rw [runBFS]
    cases hp : st.pending with
    | nil => exact Or.inl rfl
    | cons f rest =>
      dsimp only
      cases hsc : E.scannerOf f with
      | none =>
        refine ih ⟨rest, st.visited, st.scanLog⟩ ?_ hread
        intro g hg
        exact hpend g (hp ▸ List.mem_cons_of_mem _ hg)
      | some plug =>
        have hffile : isFileAt E.fs f = true := hpend f (hp ▸ List.mem_cons_self f rest)
        cases hrd : readFileAt E.fs f with
        | none =>
          have := hread f (isFileAt_mem_allFiles hffile)
          rw [hrd] at this
          simp at this
        | some src =>
          dsimp only
          rcases foldl_processSpec_delta E f (plug.scan src f) st.visited [] with
            ⟨δ₀, _, hf2, _, hp0⟩
          refine ih _ ?_ hread
          intro g hg
          dsimp only at hg
          rcases List.mem_append.mp hg with hg | hg
          · exact hpend g (hp ▸ List.mem_cons_of_mem _ hg)
          · rw [hf2] at hg
            simp only [List.nil_append] at hg
            exact statAt_true_isFileAt (hp0 g hg).2.1

/-! ### Termination of the BFS (C6) -/

/-- Number of regular files of the tree not yet in the visited set. -/
def unvisitedCount (E : Engine) (v : List FPath) : Nat :=
  (((allFiles E.fs).dedup).filter (fun x => decide (x ∉ v))).length

/-- The termination measure: unvisited files plus queue length. -/
def bfsMeasure (E : Engine) (st : BFSState) : Nat :=
  unvisitedCount E st.visited + st.pending.length

theorem filter_not_mem_insert :
    ∀ (L : List FPath), L.Nodup → ∀ (t : FPath) (v : List FPath), t ∈ L → t ∉ v →
      (L.filter (fun x => decide (x ∉ v))).length
        = (L.filter (fun x => decide (x ∉ v ++ [t]))).length + 1 := by
  intro L
  induction L with
  | nil => intro _ t v htL; cases htL
  | cons a L' ih =>
    intro hnd t v htL htv
    rw [List.nodup_cons] at hnd
    rcases List.mem_cons.mp htL with ht | haL
    · subst ht
      have h1 : (decide (t ∉ v)) = true := by simpa using htv
      have h2 : (decide (t ∉ v ++ [t])) = false := by simp
      have hcong : L'.filter (fun x => decide (x ∉ v ++ [t]))
          = L'.filter (fun x => decide (x ∉ v)) := by
        apply List.filter_congr
        intro x hx
        have hxt : x ≠ t := fun h => hnd.1 (h ▸ hx)
        simp [List.mem_append, hxt]
      simp only [List.filter_cons, h1, h2]
      rw [hcong]
      simp
    · have hat : a ≠ t := fun h => hnd.1 (h ▸ haL)
      have hsame : (decide (a ∉ v ++ [t])) = (decide (a ∉ v)) := by
        simp [List.mem_append, hat]
      rw [List.filter_cons, List.filter_cons, hsame]
      by_cases hda : a ∉ v
      · rw [if_pos (by simpa using hda), if_pos (by simpa using hda)]
        simp only [List.length_cons]
        rw [ih hnd.2 t v haL htv]
      · rw [if_neg (by simpa using hda), if_neg (by simpa using hda)]
        exact ih hnd.2 t v haL htv

theorem unvisited_shift (E : Engine) :
    ∀ (δ v : List FPath), δ.Nodup →
      (∀ t ∈ δ, t ∈ allFiles E.fs ∧ t ∉ v) →
      unvisitedCount E v = unvisitedCount E (v ++ δ) + δ.length := by
  intro δ
  induction δ with
  | nil => intro v _ _; simp [unvisitedCount]
  | cons t δ' ih =>
    intro v hnd hprop
    rw [List.nodup_cons] at hnd
    rcases hprop t (List.mem_cons_self t δ') with ⟨htF, htv⟩
    have h1 : unvisitedCount E v = unvisitedCount E (v ++ [t]) + 1 := by
      unfold unvisitedCount
      exact filter_not_mem_insert (allFiles E.fs).dedup (List.nodup_dedup _) t v
        (List.mem_dedup.mpr htF) htv
    have h2 : unvisitedCount E (v ++ [t]) = unvisitedCount E ((v ++ [t]) ++ δ') + δ'.length := by
      refine ih (v ++ [t]) hnd.2 ?_
      intro u hu
      rcases hprop u (List.mem_cons_of_mem _ hu) with ⟨huF, huv⟩
      refine ⟨huF, ?_⟩
      intro hmem
      rcases List.mem_append.mp hmem with h | h
      · exact huv h
      · rcases List.mem_singleton.mp h with rfl
        exact hnd.1 hu
    rw [h1, h2, List.append_assoc]
    simp only [List.singleton_append, List.length_cons]
    omega

/-- With fuel exceeding the measure, the loop finishes (the index reaches
the end of the queue or the run aborts on a read failure); it never runs
out of fuel. -/
theorem runBFS_no_fuelOut (E : Engine) :
    ∀ (fuel : Nat) (st : BFSState), bfsMeasure E st < fuel →
      (runBFS E fuel st).1 ≠ BFSOutcome.fuelOut := by
  intro fuel
  induction fuel with
  | zero => intro st h; omega
  | succ fuel' ih =>
    intro st hm
    rw [runBFS]
    cases hp : st.pending with
    | nil => simp
    | cons f rest =>
      have hplen : st.pending.length = rest.length + 1 := by rw [hp]; simp
      dsimp only
      cases hsc : E.scannerOf f with
      | none =>
        refine ih ⟨rest, st.visited, st.scanLog⟩ ?_
        unfold bfsMeasure at hm ⊢
        dsimp only
        omega
      | some plug =>
        cases hrd : readFileAt E.fs f with
        | none => simp
        | some src =>
          dsimp only
          rcases foldl_processSpec_delta E f (plug.scan src f) st.visited [] with
            ⟨δ₀, hf1, hf2, hnd0, hp0⟩
          refine ih _ ?_
          unfold bfsMeasure at hm ⊢
          dsimp only
          have hshift : unvisitedCount E st.visited
              = unvisitedCount E (st.visited ++ δ₀) + δ₀.length := by
            refine unvisited_shift E δ₀ st.visited hnd0 ?_
            intro t ht
            rcases hp0 t ht with ⟨hnv, hs, _⟩
            exact ⟨isFileAt_mem_allFiles (statAt_true_isFileAt hs), hnv⟩
          rw [hf1, hf2]
          simp only [List.nil_append, List.length_append]
          omega

/-! ### The scan-once invariant (C1) -/

/-- Run invariant: the visited set has no duplicates, only files with a
registered scanner are ever scanned, each recognized file occurs at most
once across scan log and queue, and any recognized file present there is
already in the visited set. -/
theorem count_cons_eq (f g : FPath) (l : List FPath) :
    List.count g (f :: l) = List.count g l + if f = g then 1 else 0 := by
  by_cases h : f = g
  · cases h; simp [List.count_cons]
  · simp [List.count_cons, h]

theorem count_single_eq (f g : FPath) :
    List.count g [f] = if f = g then 1 else 0 := by
  by_cases h : f = g
  · cases h; simp
  · rw [if_neg h]
    exact List.count_eq_zero.mpr (by simpa using fun he => h he.symm)

theorem count_le_one_of_nodup : ∀ {l : List FPath}, l.Nodup → ∀ g, List.count g l ≤ 1 := by
  intro l
  induction l with
  | nil => intro _ g; simp
  | cons a l' ih =>
    intro h g
    rw [List.nodup_cons] at h
    rw [count_cons_eq a g l']
    by_cases hag : a = g
    · cases hag
      rw [if_pos rfl]
      have h0 : List.count a l' = 0 := List.count_eq_zero.mpr h.1
      omega
    · rw [if_neg hag]
      have := ih h.2 g
      omega

def EngInv (E : Engine) (st : BFSState) : Prop :=
  st.visited.Nodup ∧
  (∀ f ∈ st.scanLog, E.recognizedB f = true) ∧
  (∀ f, E.recognizedB f = true →
      List.count f st.scanLog + List.count f st.pending ≤ 1) ∧
  (∀ f, E.recognizedB f = true →
      1 ≤ List.count f st.scanLog + List.count f st.pending → f ∈ st.visited)

theorem runBFS_EngInv (E : Engine) :
    ∀ (fuel : Nat) (st : BFSState), EngInv E st → EngInv E (runBFS E fuel st).2 := by
  intro fuel
  induction fuel with
  | zero =>
    intro st hinv
    rw [runBFS]
    cases st.pending with
    | nil => exact hinv
    | cons f rest => exact hinv
  | succ fuel' ih =>
    intro st hinv
    obtain ⟨hnd, hlog, hcnt, hmem⟩ := hinv
    rw [runBFS]
    cases hp : st.pending with
    | nil => exact ⟨hnd, hlog, hcnt, hmem⟩
    | cons f rest =>
      dsimp only
      cases hsc : E.scannerOf f with
      | none =>
        refine ih ⟨rest, st.visited, st.scanLog⟩ ⟨hnd, hlog, ?_, ?_⟩
        · intro g hg
          have hthis := hcnt g hg
          rw [hp, count_cons_eq f g rest] at hthis
          dsimp only
          by_cases hgf : f = g
          · rw [if_pos hgf] at hthis; omega
          · rw [if_neg hgf] at hthis; omega
        · intro g hg h1
          refine hmem g hg ?_
          rw [hp, count_cons_eq f g rest]
          dsimp only at h1
          by_cases hgf : f = g
          · rw [if_pos hgf]; omega
          · rw [if_neg hgf]; omega
      | some plug =>
        cases hrd : readFileAt E.fs f with
        | none => exact ⟨hnd, hlog, hcnt, hmem⟩
        | some src =>
          dsimp only
          have hrecf : E.recognizedB f = true := by
            refine (Engine.scanner_recognized E f).mp ?_
            rw [hsc]
            rfl
          have hfv : f ∈ st.visited := by
            refine hmem f hrecf ?_
            rw [hp, count_cons_eq f f rest, if_pos rfl]
            omega
          rcases foldl_processSpec_delta E f (plug.scan src f) st.visited [] with
            ⟨δ₀, hf1, hf2, hnd0, hp0⟩
          refine ih _ ⟨?_, ?_, ?_, ?_⟩
          · dsimp only
            rw [hf1, List.nodup_append]
            exact ⟨hnd, hnd0, fun a ha hb => (hp0 a hb).1 ha⟩
          · dsimp only
            intro g hg
            rcases List.mem_append.mp hg with hg | hg
            · exact hlog g hg
            · rcases List.mem_singleton.mp hg with rfl
              exact hrecf
          · intro g hg
            dsimp only
            rw [hf2]
            simp only [List.nil_append]
            have hold := hcnt g hg
            rw [hp, count_cons_eq f g rest] at hold
            rw [List.count_append, List.count_append, count_single_eq f g]
            by_cases hgδ : g ∈ δ₀
            · have hgnv : g ∉ st.visited := (hp0 g hgδ).1
              have hzero : List.count g st.scanLog + List.count g st.pending = 0 := by
                by_contra hne
                exact hgnv (hmem g hg (by omega))
              rw [hp, count_cons_eq f g rest] at hzero
              have hδcnt : List.count g δ₀ ≤ 1 := count_le_one_of_nodup hnd0 g
              by_cases hgf : f = g
              · rw [if_pos hgf] at hzero ⊢; omega
              · rw [if_neg hgf] at hzero ⊢; omega
            · have hδ0 : List.count g δ₀ = 0 := List.count_eq_zero.mpr hgδ
              by_cases hgf : f = g
              · rw [if_pos hgf] at hold ⊢; omega
              · rw [if_neg hgf] at hold ⊢; omega
          · intro g hg h1
            dsimp only at h1 ⊢
            rw [hf1]
            rw [hf2] at h1
            simp only [List.nil_append] at h1
            rw [List.count_append, List.count_append, count_single_eq f g] at h1
            by_cases hgδ : g ∈ δ₀
            · exact List.mem_append_right _ hgδ
            · have hδ0 : List.count g δ₀ = 0 := List.count_eq_zero.mpr hgδ
              by_cases hgf : f = g
              · cases hgf
                exact List.mem_append_left _ hfv
              · rw [if_neg hgf] at h1
                refine List.mem_append_left _ (hmem g hg ?_)
                rw [hp, count_cons_eq f g rest, if_neg hgf]
                omega

theorem runBFS_scanLog_count (E : Engine) (fuel : Nat) (st : BFSState)
    (hinv : EngInv E st) (f : FPath) :
    List.count f (runBFS E fuel st).2.scanLog ≤ 1 := by
  obtain ⟨_, hlog, hcnt, _⟩ := runBFS_EngInv E fuel st hinv
  by_cases hrec : E.recognizedB f = true
  · have := hcnt f hrec
    omega
  · have : f ∉ (runBFS E fuel st).2.scanLog := fun hmem => hrec (hlog f hmem)
    rw [List.count_eq_zero.mpr this]
    omega

/-! ### The walk respects the exclude pattern except for direct file seeds (C2) -/

theorem isIgnored_false_IGN {IGN : Chars → Bool} {root p : FPath} {rules : List GRule}
    (h : isIgnored IGN root p rules = false) : IGN (relChars root p) = false := by
  unfold isIgnored at h
  rcases Bool.or_eq_false_iff.mp h with ⟨h1, _⟩
  exact h1

mutual
def dive_emits (IGN : Chars → Bool) (root : FPath) :
    ∀ (n : FSNode) (p : FPath) (rules : List GRule) (f : FPath),
      f ∈ dive IGN root n p rules → f = p ∨ IGN (relChars root f) = false
  | .file _ _, p, rules, f => fun hf => by
      rw [dive.eq_def] at hf
      rcases List.mem_singleton.mp hf with rfl
      exact Or.inl rfl
  | .dir children, p, rules, f => fun hf => by
      rw [dive.eq_def] at hf
      exact Or.inr (diveChildren_emits IGN root children p _ f hf)
def diveChildren_emits (IGN : Chars → Bool) (root : FPath) :
    ∀ (es : FSEntries) (p : FPath) (rules : List GRule) (f : FPath),
      f ∈ diveChildren IGN root es p rules → IGN (relChars root f) = false
  | .nil, p, rules, f => fun hf => by
      rw [diveChildren.eq_def] at hf
      cases hf
  | .cons name child rest, p, rules, f => fun hf => by
      rw [diveChildren.eq_def] at hf
      rcases List.mem_append.mp hf with h | h
      · by_cases hig : isIgnored IGN root (p ++ [name]) rules = true
        · rw [if_pos hig] at h
          cases h
        · rw [if_neg hig] at h
          rcases dive_emits IGN root child (p ++ [name]) rules f h with hfp | hok
          · subst hfp
            exact isIgnored_false_IGN (by simpa using hig)
          · exact hok
      · exact diveChildren_emits IGN root rest p rules f h
end

/-- C2 (amended).  When walking a directory, every enumerated file has a
root-relative path the exclude pattern does not match (ignored children are
pruned); a file given directly as walk start bypasses the check.  During
the BFS, everything added to the visited set beyond the initial seeds is a
resolved target whose ABSOLUTE path the exclude pattern does not match. -/
theorem exclude_pattern_filtering :
    (∀ (fs : FSNode) (start : FPath) (IGN : Chars → Bool) (root : FPath) (ch : FSEntries),
        lookupFS fs start = some (.dir ch) →
        ∀ f ∈ walkFrom fs start IGN root, IGN (relChars root f) = false) ∧
    (∀ (E : Engine) (fuel : Nat) (st : BFSState) (f : FPath),
        f ∈ (runBFS E fuel st).2.visited →
        f ∈ st.visited ∨ E.IGN (pathChars f) = false) := by
  constructor
  · intro fs start IGN root ch hlk f hf
    unfold walkFrom at hf
    rw [hlk] at hf
    dsimp only at hf
    rw [dive.eq_def] at hf
    dsimp only at hf
    exact diveChildren_emits IGN root ch start _ f hf
  · intro E fuel st f hf
    rcases runBFS_visited_growth E fuel st with ⟨δ, h1, h2⟩
    rw [h1] at hf
    rcases List.mem_append.mp hf with h | h
    · exact Or.inl h
    · exact Or.inr (h2 f h).2

/-- The JavaScript plugin as instantiated in the concrete runs: its
extensions, a scan whose result on the empty content is empty (the
tree-sitter query of `''` yields no captures), and a resolver that returns
null when no alias configuration is loaded. -/
def jsStub : Plugin :=
  ⟨"javascript", [".js", ".jsx", ".mjs", ".cjs", ".ts", ".tsx"],
   fun _ _ => [], some (fun _ _ => none)⟩

/-- Project whose only source file sits under `test/`, excluded by the
user pattern. -/
def cxEngineC2 : Engine :=
  ⟨.dir (FSEntries.ofList [("test", .dir (FSEntries.ofList [("x.js", .file "" true)]))]),
   fun s => startsWithL s "test".toList, [jsStub], [], none, []⟩

/-- C2 counterexample.  The exclude pattern matches the root-relative path
`test/x.js`, yet passing that file directly as an input adds it to the
visited set: `walk` on a file start bypasses the ignore check. -/
theorem exclude_direct_seed_bypass_cx :
    cxEngineC2.IGN (relChars [] ["test", "x.js"]) = true ∧
    ["test", "x.js"] ∈ (scanexRun cxEngineC2 [["test", "x.js"]] 2).2.visited ∧
    (scanexRun cxEngineC2 [["test", "x.js"]] 2).1 = BFSOutcome.ok := by
  decide

/-- Witness for C2 (amended) at concrete inputs: `src/x.js` is enumerated
by the walk of the scenario tree and indeed not matched by the pattern,
and a file of the visited set after a run was a seed or passed the
absolute-path exclude test. -/
theorem exclude_pattern_filtering_witness :
    noIgnore (relChars [] ["src", "x.js"]) = false ∧
    (["test", "x.js"] ∈ initialVisited cxEngineC2 (seedQueue cxEngineC2 [["test", "x.js"]]) ∨
      cxEngineC2.IGN (pathChars ["test", "x.js"]) = false) := by
  constructor
  · exact exclude_pattern_filtering.1 c8FS [] noIgnore [] c8Entries rfl
      ["src", "x.js"] (by decide)
  · exact exclude_pattern_filtering.2 cxEngineC2 2
      ⟨seedQueue cxEngineC2 [["test", "x.js"]],
       initialVisited cxEngineC2 (seedQueue cxEngineC2 [["test", "x.js"]]), []⟩
      ["test", "x.js"] (by decide)

/-! ### No duplicate processing (C1) -/

/-- C1 (amended).  The visited set never holds a path twice, for any run.
The scan log holds each file at most once PROVIDED the seed queue is
duplicate-free; a file seeded several times (overlapping inputs) is
scanned once per occurrence, which the counterexample exhibits. -/
theorem bfs_no_duplicate_processing :
    (∀ (E : Engine) (q0 : List FPath) (fuel : Nat),
        ((runBFS E fuel ⟨q0, initialVisited E q0, []⟩).2.visited).Nodup) ∧
    (∀ (E : Engine) (q0 : List FPath) (fuel : Nat), q0.Nodup →
        ∀ f, List.count f (runBFS E fuel ⟨q0, initialVisited E q0, []⟩).2.scanLog ≤ 1) := by
  constructor
  · intro E q0 fuel
    exact runBFS_visited_nodup E fuel _ (initialVisited_nodup E q0)
  · intro E q0 fuel hnd f
    refine runBFS_scanLog_count E fuel _ ⟨initialVisited_nodup E q0, ?_, ?_, ?_⟩ f
    · intro g hg
      cases hg
    · intro g _
      have := count_le_one_of_nodup hnd g
      simpa using this
    · intro g hg h1
      rw [initialVisited_mem]
      refine ⟨?_, hg⟩
      simp only [List.count_nil, Nat.zero_add] at h1
      have hpos : 0 < List.count g q0 := h1
      exact List.count_pos_iff.mp hpos

/-- Project with a single JavaScript file. -/
def cxEngineC1 : Engine :=
  ⟨.dir (FSEntries.ofList [("a.js", .file "" true)]), noIgnore, [jsStub], [], none, []⟩

/-- C1 counterexample.  Invoked with the same file as two inputs, the seed
queue holds it twice, the visited set (a JS `Set`) dedups it — but the BFS
loop iterates the raw queue, so the plugin's `scan` is invoked twice on
the same resolved absolute path. -/
theorem bfs_duplicate_seed_scanned_twice_cx :
    seedQueue cxEngineC1 [["a.js"], ["a.js"]] = [["a.js"], ["a.js"]] ∧
    (scanexRun cxEngineC1 [["a.js"], ["a.js"]] 3).2.scanLog = [["a.js"], ["a.js"]] ∧
    1 < List.count ["a.js"] (scanexRun cxEngineC1 [["a.js"], ["a.js"]] 3).2.scanLog ∧
    (scanexRun cxEngineC1 [["a.js"], ["a.js"]] 3).2.visited = [["a.js"]] := by
  decide

/-- Witness for C1 (amended) at a concrete run with a duplicate-free seed
queue. -/
theorem bfs_no_duplicate_processing_witness :
    ((runBFS cxEngineC1 2 ⟨[["a.js"]], initialVisited cxEngineC1 [["a.js"]], []⟩).2.visited).Nodup ∧
    List.count ["a.js"]
      (runBFS cxEngineC1 2 ⟨[["a.js"]], initialVisited cxEngineC1 [["a.js"]], []⟩).2.scanLog ≤ 1 :=
  ⟨bfs_no_duplicate_processing.1 cxEngineC1 [["a.js"]] 2,
   bfs_no_duplicate_processing.2 cxEngineC1 [["a.js"]] 2 (by decide) ["a.js"]⟩

/-! ### Unrecognized seeds (C4) -/

theorem mem_insertSorted (x y : Chars) :
    ∀ (l : List Chars), y ∈ insertSorted x l ↔ y = x ∨ y ∈ l := by
  intro l
  induction l with
  | nil => simp [insertSorted]
  | cons z zs ih =>
    rw [insertSorted]
    by_cases h : chLe x z = true
    · rw [if_pos h]
      simp
    · rw [if_neg h]
      simp only [List.mem_cons, ih]
      tauto

theorem mem_sortChars (y : Chars) : ∀ (l : List Chars), y ∈ sortChars l ↔ y ∈ l := by
  intro l
  induction l with
  | nil => simp [sortChars]
  | cons z zs ih =>
    rw [sortChars, mem_insertSorted]
    simp only [List.mem_cons, ih]

/-- Any scanned file has a registered scanner, hence a recognized
extension. -/
theorem runBFS_scanLog_recognized (E : Engine) :
    ∀ (fuel : Nat) (st : BFSState),
      (∀ g ∈ st.scanLog, E.recognizedB g = true) →
      ∀ g ∈ (runBFS E fuel st).2.scanLog, E.recognizedB g = true := by
  intro fuel
  induction fuel with
  | zero =>
    intro st h
    rw [runBFS]
    cases st.pending with
    | nil => exact h
    | cons f rest => exact h
  | succ fuel' ih =>
    intro st h
    rw [runBFS]
    cases hp : st.pending with
    | nil => exact h
    | cons f rest =>
      dsimp only
      cases hsc : E.scannerOf f with
      | none => exact ih ⟨rest, st.visited, st.scanLog⟩ h
      | some plug =>
        cases hrd : readFileAt E.fs f with
        | none => exact h
        | some src =>
          dsimp only
          refine ih _ ?_
          intro g hg
          rcases List.mem_append.mp hg with hg | hg
          · exact h g hg
          · rcases List.mem_singleton.mp hg with rfl
            refine (Engine.scanner_recognized E g).mp ?_
            rw [hsc]
            rfl

/-- C4 (amended).  A seed whose extension no plugin recognizes is excluded
from the initial visited set and is never scanned (it propagates nothing);
the rendered bundle lists exactly the visited files, so such a seed is
absent from the output unless a scanned file's specifier later resolves to
it. -/
theorem unrecognized_seed_behavior :
    (∀ (E : Engine) (q0 : List FPath) (f : FPath),
        E.recognizedB f = false → f ∉ initialVisited E q0) ∧
    (∀ (E : Engine) (fuel : Nat) (q0 v0 : List FPath) (g : FPath),
        g ∈ (runBFS E fuel ⟨q0, v0, []⟩).2.scanLog → E.recognizedB g = true) ∧
    (∀ (v : List FPath) (x : Chars), x ∈ bundleFileList v → ∃ g ∈ v, x = pathChars g) := by
  refine ⟨?_, ?_, ?_⟩
  · intro E q0 f hrec hmem
    rw [initialVisited_mem] at hmem
    rw [hmem.2] at hrec
    cases hrec
  · intro E fuel q0 v0 g hg
    exact runBFS_scanLog_recognized E fuel ⟨q0, v0, []⟩ (fun g hg => by cases hg) g hg
  · intro v x hx
    unfold bundleFileList at hx
    rw [mem_sortChars] at hx
    rcases List.mem_map.mp hx with ⟨g, hgv, hgx⟩
    exact ⟨g, hgv, hgx.symm⟩

/-- Project with a JavaScript file and a `.txt` file no plugin recognizes. -/
def cxEngineC4 : Engine :=
  ⟨.dir (FSEntries.ofList [("a.js", .file "" true), ("notes.txt", .file "" true)]),
   noIgnore, [jsStub], [], none, []⟩

/-- C4 counterexample.  `notes.txt` is walked and seeded, but it is
filtered out of the visited set, and the bundle — built from `visited`
only — does NOT list it: the claim's "still appears in the final output"
fails on the code. -/
theorem unrecognized_seed_not_in_output_cx :
    ["notes.txt"] ∈ seedQueue cxEngineC4 [[]] ∧
    cxEngineC4.recognizedB ["notes.txt"] = false ∧
    ["notes.txt"] ∉ (scanexRun cxEngineC4 [[]] 3).2.visited ∧
    pathChars ["notes.txt"] ∉ bundleFileList (scanexRun cxEngineC4 [[]] 3).2.visited ∧
    (scanexRun cxEngineC4 [[]] 3).1 = BFSOutcome.ok := by
  decide

/-- Witness for C4 (amended) at concrete inputs. -/
theorem unrecognized_seed_behavior_witness :
    ["notes.txt"] ∉ initialVisited cxEngineC4 (seedQueue cxEngineC4 [[]]) ∧
    cxEngineC4.recognizedB ["a.js"] = true ∧
    (∃ g ∈ [(["a.js"] : FPath)], pathChars ["a.js"] = pathChars g) := by
  refine ⟨?_, ?_, ?_⟩
  · exact unrecognized_seed_behavior.1 cxEngineC4 (seedQueue cxEngineC4 [[]])
      ["notes.txt"] (by decide)
  · exact unrecognized_seed_behavior.2.1 cxEngineC4 3 (seedQueue cxEngineC4 [[]])
      (initialVisited cxEngineC4 (seedQueue cxEngineC4 [[]])) ["a.js"] (by decide)
  · exact unrecognized_seed_behavior.2.2 [["a.js"]] (pathChars ["a.js"]) (by decide)

/-! ### Error containment (C5) and termination (C6) -/

/-- C5 (amended).  While every dequeued scannable file is readable, the
engine never aborts — unresolvable specifiers, resolvers returning
arbitrary junk targets and stat failures on resolved targets are all
caught and skipped.  (The unguarded `readFileSync` of a dequeued file is
the single abort point, exhibited by the counterexample.) -/
theorem engine_error_containment :
    ∀ (E : Engine) (fuel : Nat) (st : BFSState),
      (∀ f ∈ st.pending, isFileAt E.fs f = true) →
      (∀ f ∈ allFiles E.fs, (readFileAt E.fs f).isSome = true) →
      ∀ g, (runBFS E fuel st).1 ≠ BFSOutcome.readFail g := by
  intro E fuel st h1 h2 g hcontra
  rcases runBFS_ok_or_fuelOut E fuel st h1 h2 with h | h <;>
    · rw [hcontra] at h
      exact BFSOutcome.noConfusion h

/-- Project whose single JavaScript file exists but cannot be read
(permissions): `statSync` succeeds, `readFileSync` throws. -/
def cxEngineC5 : Engine :=
  ⟨.dir (FSEntries.ofList [("a.js", .file "secret" false)]), noIgnore, [jsStub], [], none, []⟩

/-- C5 counterexample.  The file is walked and seeded, but the engine's
`readFileSync` is not guarded: the read failure aborts the whole BFS run
instead of being skipped. -/
theorem engine_read_failure_aborts_cx :
    seedQueue cxEngineC5 [["a.js"]] = [["a.js"]] ∧
    (scanexRun cxEngineC5 [["a.js"]] 2).1 = BFSOutcome.readFail ["a.js"] := by
  decide

/-- Witness for C5 (amended) at a concrete readable project. -/
theorem engine_error_containment_witness :
    (runBFS cxEngineC1 3
      ⟨[["a.js"]], initialVisited cxEngineC1 [["a.js"]], []⟩).1 ≠ BFSOutcome.readFail ["a.js"] :=
  engine_error_containment cxEngineC1 3
    ⟨[["a.js"]], initialVisited cxEngineC1 [["a.js"]], []⟩
    (by decide) (by decide) ["a.js"]

/-- C6.  With fuel exceeding the measure (unvisited files + queue length)
the BFS never runs out of fuel — every file is enqueued at most once via
the visited-set gate, and the file set is finite — and, when every file is
readable, the queue empties and the run ends `ok`. -/
theorem bfs_terminates :
    (∀ (E : Engine) (st : BFSState) (fuel : Nat),
        bfsMeasure E st < fuel → (runBFS E fuel st).1 ≠ BFSOutcome.fuelOut) ∧
    (∀ (E : Engine) (st : BFSState) (fuel : Nat),
        bfsMeasure E st < fuel →
        (∀ f ∈ st.pending, isFileAt E.fs f = true) →
        (∀ f ∈ allFiles E.fs, (readFileAt E.fs f).isSome = true) →
        (runBFS E fuel st).1 = BFSOutcome.ok) := by
  constructor
  · exact fun E st fuel h => runBFS_no_fuelOut E fuel st h
  · intro E st fuel hm h1 h2
    rcases runBFS_ok_or_fuelOut E fuel st h1 h2 with h | h
    · exact h
    · exact absurd h (runBFS_no_fuelOut E fuel st hm)

/-- Witness for C6 at a concrete run. -/
theorem bfs_terminates_witness :
    (runBFS cxEngineC1 5 ⟨[["a.js"]], [], []⟩).1 ≠ BFSOutcome.fuelOut ∧
    (runBFS cxEngineC1 5 ⟨[["a.js"]], [], []⟩).1 = BFSOutcome.ok := by
  constructor
  · exact bfs_terminates.1 cxEngineC1 ⟨[["a.js"]], [], []⟩ 5 (by decide)
  · exact bfs_terminates.2 cxEngineC1 ⟨[["a.js"]], [], []⟩ 5 (by decide)
      (by decide) (by decide)

/-! ### Project root locator (`bin/scanex.js`, C7)

The search loop walks `currentDir` upward while
`currentDir !== dirname(currentDir)` — so the filesystem root itself is
never examined — recording the first directory with a version-control
marker (`isRepositoryRoot`) and the first with a project manifest
(`isProjectRoot`), and breaking as soon as a repository root is found. -/

def rootSearch (hR hM : FPath → Bool) (cur : FPath) (fR fM : Option FPath) :
    Option FPath × Option FPath :=
  if h : cur = [] then (fR, fM)
  else
    let fR' := if hR cur && fR.isNone then some cur else fR
    let fM' := if hM cur && fM.isNone then some cur else fM
    if fR'.isSome then (fR', fM')
    else rootSearch hR hM cur.dropLast fR' fM'
termination_by cur.length
decreasing_by
  simp only [List.length_dropLast]
  have := List.length_pos.mpr h
  omega

/-- Choose repository root, else project root, else the original starting
directory. -/
def projectRootLocate (hR hM : FPath → Bool) (start : FPath) : FPath :=
  match rootSearch hR hM start none none with
  | (some r, _) => r
  | (none, some m) => m
  | (none, none) => start

/-- The directories the loop examines: the start and its ancestors, the
filesystem root excluded. -/
def nonRootAncestors (l : FPath) : List FPath :=
  if h : l = [] then [] else l :: nonRootAncestors l.dropLast
termination_by l.length
decreasing_by
  simp only [List.length_dropLast]
  have := List.length_pos.mpr h
  omega

/-- All ancestors including the filesystem root. -/
def ancestorsWithRoot (d : FPath) : List FPath := nonRootAncestors d ++ [[]]

theorem rootSearch_fst (hR hM : FPath → Bool) :
    ∀ (n : Nat) (d : FPath) (fM : Option FPath), d.length = n →
      (rootSearch hR hM d none fM).1 = (nonRootAncestors d).find? hR := by
  intro n
  induction n with
  | zero =>
    intro d fM hlen
    have hd : d = [] := List.length_eq_zero.mp hlen
    subst hd
    rw [rootSearch, nonRootAncestors]
    simp
  | succ m ih =>
    intro d fM hlen
    have hd : ¬ d = [] := by
      intro h
      subst h
      simp at hlen
    rw [rootSearch, dif_neg hd, nonRootAncestors, dif_neg hd]
    dsimp only
    cases hhr : hR d with
    | true =>
      simp only [hhr, Option.isNone_none, Bool.and_true, if_true, Option.isSome_some]
      rw [List.find?_cons_of_pos _ hhr]
    | false =>
      have hlen' : d.dropLast.length = m := by
        rw [List.length_dropLast, hlen]
        rfl
      simp only [Bool.false_and, Bool.false_eq_true, if_false, Option.isSome_none,
        Option.isNone_none, Bool.and_true]
      rw [ih d.dropLast _ hlen']
      rw [List.find?_cons_of_neg _ (by simp [hhr])]

theorem rootSearch_snd_some (hR hM : FPath → Bool) :
    ∀ (n : Nat) (d : FPath) (m0 : FPath), d.length = n →
      (nonRootAncestors d).find? hR = none →
      (rootSearch hR hM d none (some m0)).2 = some m0 := by
  intro n
  induction n with
  | zero =>
    intro d m0 hlen _
    have hd : d = [] := List.length_eq_zero.mp hlen
    subst hd
    rw [rootSearch]
    simp
  | succ m ih =>
    intro d m0 hlen hfind
    have hd : ¬ d = [] := by
      intro h
      subst h
      simp at hlen
    rw [nonRootAncestors, dif_neg hd] at hfind
    have hhr : hR d = false := by
      cases hhr : hR d with
      | false => rfl
      | true =>
        rw [List.find?_cons_of_pos _ hhr] at hfind
        cases hfind
    rw [List.find?_cons_of_neg _ (by simp [hhr])] at hfind
    rw [rootSearch, dif_neg hd]
    dsimp only
    simp only [hhr, Bool.false_and, if_false, Option.isNone_some, Bool.and_false]
    rw [if_neg (by simp)]
    have hlen' : d.dropLast.length = m := by
      rw [List.length_dropLast, hlen]
      rfl
    exact ih d.dropLast m0 hlen' hfind

theorem rootSearch_snd_none (hR hM : FPath → Bool) :
    ∀ (n : Nat) (d : FPath), d.length = n →
      (nonRootAncestors d).find? hR = none →
      (rootSearch hR hM d none none).2 = (nonRootAncestors d).find? hM := by
  intro n
  induction n with
  | zero =>
    intro d hlen _
    have hd : d = [] := List.length_eq_zero.mp hlen
    subst hd
    rw [rootSearch, nonRootAncestors]
    simp
  | succ m ih =>
    intro d hlen hfind
    have hd : ¬ d = [] := by
      intro h
      subst h
      simp at hlen
    rw [nonRootAncestors, dif_neg hd] at hfind
    have hhr : hR d = false := by
      cases hhr : hR d with
      | false => rfl
      | true =>
        rw [List.find?_cons_of_pos _ hhr] at hfind
        cases hfind
    rw [List.find?_cons_of_neg _ (by simp [hhr])] at hfind
    have hlen' : d.dropLast.length = m := by
      rw [List.length_dropLast, hlen]
      rfl
    rw [rootSearch, dif_neg hd]
    dsimp only
    simp only [hhr, Bool.false_and, if_false, Option.isNone_none, Bool.and_true]
    rw [if_neg (by simp)]
    rw [nonRootAncestors, dif_neg hd]
    cases hhm : hM d with
    | true =>
      simp only [Bool.false_eq_true, if_false, if_true]
      rw [rootSearch_snd_some hR hM m d.dropLast d hlen' hfind]
      rw [List.find?_cons_of_pos _ hhm]
    | false =>
      simp only [Bool.false_eq_true, if_false]
      rw [ih d.dropLast hlen' hfind]
      rw [List.find?_cons_of_neg _ (by simp [hhm])]

/-- C7 (amended).  For every marker configuration and starting directory,
the locator returns the nearest searched ancestor (start inclusive, the
filesystem root itself never examined) holding a version-control marker if
one exists — ascent stops there — else the nearest searched ancestor
holding a project manifest, else the original starting directory; it is a
total function and never fails. -/
theorem projectRoot_locator_spec :
    ∀ (hR hM : FPath → Bool) (d : FPath),
      projectRootLocate hR hM d =
        (match (nonRootAncestors d).find? hR with
         | some r => r
         | none =>
           match (nonRootAncestors d).find? hM with
           | some m => m
           | none => d) := by
  intro hR hM d
  unfold projectRootLocate
  rcases hsr : rootSearch hR hM d none none with ⟨fst, snd⟩
  have h1 : fst = (nonRootAncestors d).find? hR := by
    have := rootSearch_fst hR hM d.length d none rfl
    rw [hsr] at this
    exact this
  cases hfr : (nonRootAncestors d).find? hR with
  | some r =>
    rw [hfr] at h1
    subst h1
    rfl
  | none =>
    rw [hfr] at h1
    subst h1
    have h2 : snd = (nonRootAncestors d).find? hM := by
      have := rootSearch_snd_none hR hM d.length d rfl hfr
      rw [hsr] at this
      exact this
    cases hfm : (nonRootAncestors d).find? hM with
    | some m =>
      rw [hfm] at h2
      subst h2
      rfl
    | none =>
      rw [hfm] at h2
      subst h2
      rfl

/-- A version-control marker present only at the filesystem root. -/
def repoMarkAtRootOnly : FPath → Bool := fun p => p.isEmpty

/-- No project manifest anywhere. -/
def noMarker : FPath → Bool := fun _ => false

/-- C7 counterexample.  With the version-control marker at the filesystem
root only, an ancestor containing the marker exists, yet the locator falls
back to the starting directory: the loop guard
`currentDir !== dirname(currentDir)` exits before ever examining the
root. -/
theorem projectRoot_fsroot_marker_cx :
    projectRootLocate repoMarkAtRootOnly noMarker ["a"] = ["a"] ∧
    repoMarkAtRootOnly [] = true ∧
    [] ∈ ancestorsWithRoot ["a"] ∧
    (["a"] : FPath) ≠ ([] : FPath) := by
  refine ⟨?_, rfl, ?_, by decide⟩
  · simp [projectRootLocate, rootSearch, repoMarkAtRootOnly, noMarker]
  · simp [ancestorsWithRoot, nonRootAncestors]

/-! ### Plugin scan guards (C10)

The JavaScript, Python and Ruby plugin `scan` functions all have the shape
`if (!src || src.trim() === '') return []; try { ...parse+extract... }
catch (e) { ...log...; return [] }`.  The tree-sitter parser and the
query-driven extraction are external; they are parameters here, with a
thrown parser exception modelled as `Except.error`.  The emptiness test
`!src || src.trim() === ''` is `(trimChars src.toList).isEmpty`. -/

def jsScan (α : Type) (parse : String → Except String α)
    (extract : α → List String) (src : String) (file : FPath) : List String :=
  if (trimChars src.toList).isEmpty then []
  else
    match parse src with
    | .ok tree => extract tree
    | .error _ => []

def pyScan (β : Type) (parse : String → Except String β)
    (extract : β → List String) (src : String) : List String :=
  if (trimChars src.toList).isEmpty then []
  else
    match parse src with
    | .ok tree => extract tree
    | .error _ => []

def rubyScan (γ : Type) (parse : String → Except String γ)
    (extract : γ → List Spec) (src : String) (file : FPath) : List Spec :=
  if (trimChars src.toList).isEmpty then []
  else
    match parse src with
    | .ok tree => extract tree
    | .error _ => []

/-- C10.  For the JavaScript, Python and Ruby plugins: scan of empty or
whitespace-only content returns no specifiers, and a parser exception is
caught and yields no specifiers instead of propagating. -/
theorem plugin_scan_guards :
    ∀ (α β γ : Type) (pj : String → Except String α) (pp : String → Except String β)
      (pr : String → Except String γ) (ej : α → List String) (ep : β → List String)
      (er : γ → List Spec) (src : String) (file : FPath),
      ((trimChars src.toList).isEmpty = true →
        jsScan α pj ej src file = [] ∧ pyScan β pp ep src = [] ∧
        rubyScan γ pr er src file = []) ∧
      (∀ e, pj src = .error e → jsScan α pj ej src file = []) ∧
      (∀ e, pp src = .error e → pyScan β pp ep src = []) ∧
      (∀ e, pr src = .error e → rubyScan γ pr er src file = []) := by
  intro α β γ pj pp pr ej ep er src file
  refine ⟨?_, ?_, ?_, ?_⟩
  · intro h
    have h' : trimChars src.data = [] := by simpa using h
    refine ⟨?_, ?_, ?_⟩ <;> simp [jsScan, pyScan, rubyScan, h']
  · intro e he
    unfold jsScan
    by_cases h : (trimChars src.toList).isEmpty = true
    · rw [if_pos h]
    · rw [if_neg h, he]
  · intro e he
    unfold pyScan
    by_cases h : (trimChars src.toList).isEmpty = true
    · rw [if_pos h]
    · rw [if_neg h, he]
  · intro e he
    unfold rubyScan
    by_cases h : (trimChars src.toList).isEmpty = true
    · rw [if_pos h]
    · rw [if_neg h, he]

/-- Witness for C10: whitespace-only content and an always-throwing parser
at concrete instances. -/
theorem plugin_scan_guards_witness :
    (jsScan Unit (fun _ => Except.error "boom") (fun _ => ["x"]) "  \n" [] = [] ∧
      pyScan Unit (fun _ => Except.error "boom") (fun _ => ["x"]) "  \n" = [] ∧
      rubyScan Unit (fun _ => Except.error "boom") (fun _ => [Spec.str "x"]) "  \n" [] = []) ∧
    jsScan Unit (fun _ => Except.error "boom") (fun _ => ["x"]) "import x" [] = [] := by
  constructor
  · exact (plugin_scan_guards Unit Unit Unit (fun _ => Except.error "boom")
      (fun _ => Except.error "boom") (fun _ => Except.error "boom")
      (fun _ => ["x"]) (fun _ => ["x"]) (fun _ => [Spec.str "x"]) "  \n" []).1 (by decide)
  · exact (plugin_scan_guards Unit Unit Unit (fun _ => Except.error "boom")
      (fun _ => Except.error "boom") (fun _ => Except.error "boom")
      (fun _ => ["x"]) (fun _ => ["x"]) (fun _ => [Spec.str "x"]) "import x" []).2.1 "boom" rfl

end Scanex
